import Mathlib

/-!
Verification of the reindeer entity store (`src/entity.rs`) against its
specification.  The sled `Tree` is modelled as an association list from byte
strings to values, kept in strictly increasing lexicographic key order by the
insertion routine; the `Entity` trait operations (`save`, `get`, `update`,
`remove`, `get_with_prefix`, auto-increment) are translated function by
function.  The relation engine (`relation.rs`) is not part of the sources;
where a claim depends on it, the deletion traversal is modelled from the
specification text and marked as such.
-/

set_option autoImplicit false

namespace Reindeer

/-- Byte strings: lists of naturals (each intended below 256). -/
abbrev Bytes := List Nat

/-- Strict lexicographic order on byte strings, as sled orders its keys. -/
def lexLt : Bytes → Bytes → Bool
  | _, [] => false
  | [], _ :: _ => true
  | a :: as, b :: bs => decide (a < b) || (a == b && lexLt as bs)

/-- `bytePfx p l` holds when `p` is an initial segment of `l`; this is the
membership test of sled's `scan_prefix`. -/
def bytePfx : Bytes → Bytes → Bool
  | [], _ => true
  | _ :: _, [] => false
  | a :: as, b :: bs => a == b && bytePfx as bs

/-- Big-endian encoding of a natural number into `w` bytes; with `w = 4` this
is `u32::to_be_bytes` of the source. -/
def beBytes : Nat → Nat → Bytes
  | 0, _ => []
  | w + 1, n => n / 256 ^ w :: beBytes w (n % 256 ^ w)

/-- Decoding of a big-endian byte string, `u32::from_be_bytes` of the source. -/
def fromBeBytes (l : Bytes) : Nat :=
  l.foldl (fun acc b => acc * 256 + b) 0

/-- `impl AsBytes for u32`: `self.to_be_bytes().to_vec()`. -/
def u32AsBytes (n : Nat) : Bytes := beBytes 4 n

/-- `impl AsBytes for String`: the string's UTF-8 bytes.  A Rust `String` is
modelled by its byte sequence, on which Rust's `Ord` is lexicographic. -/
def stringAsBytes (s : Bytes) : Bytes := s

/-- `impl AsBytes for (u32, String)`: concatenation of the two encodings. -/
def u32StringAsBytes (k : Nat × Bytes) : Bytes :=
  u32AsBytes k.1 ++ stringAsBytes k.2

/-- `impl AsBytes for (u32, u32)`: concatenation of the two encodings. -/
def u32u32AsBytes (k : Nat × Nat) : Bytes :=
  u32AsBytes k.1 ++ u32AsBytes k.2

/-! ### The sled tree model

A tree is an association list from byte keys to values; sled keeps it sorted
by `lexLt` and the insertion routine below maintains that order. -/

/-- A named tree: association list from encoded keys to records. -/
abbrev Tree (α : Type) := List (Bytes × α)

/-- Point lookup (`Tree::get`). -/
def treeGet {α : Type} (t : Tree α) (k : Bytes) : Option α :=
  (t.find? (fun kv => kv.1 == k)).map (·.2)

/-- Ordered insert-or-replace (`Tree::insert`). -/
def treeInsert {α : Type} (k : Bytes) (v : α) : Tree α → Tree α
  | [] => [(k, v)]
  | (k', v') :: rest =>
    if lexLt k k' then (k, v) :: (k', v') :: rest
    else if k == k' then (k, v) :: rest
    else (k', v') :: treeInsert k v rest

/-- Key deletion (`Tree::remove`). -/
def treeRemove {α : Type} (t : Tree α) (k : Bytes) : Tree α :=
  t.filter (fun kv => !(kv.1 == k))

/-- Last entry in key order (`Tree::last`). -/
def treeLast {α : Type} (t : Tree α) : Option (Bytes × α) :=
  t.getLast?

/-- Ordered scan of the entries whose key extends `p` (`Tree::scan_prefix`). -/
def treeScan {α : Type} (t : Tree α) (p : Bytes) : Tree α :=
  t.filter (fun kv => bytePfx p kv.1)

/-! ### Entity trait operations (`src/entity.rs`)

A record type `R` comes with the composite `keyB = as_bytes ∘ get_key`; every
trait method encodes the key and calls the tree primitive. -/

namespace Entity

/-- `Entity::save`: insert the record under its own encoded key. -/
def save {R : Type} (keyB : R → Bytes) (r : R) (t : Tree R) : Tree R :=
  treeInsert (keyB r) r t

/-- `Entity::get`: point lookup by encoded key. -/
def get {R : Type} (t : Tree R) (kb : Bytes) : Option R :=
  treeGet t kb

/-- `Entity::update`: sled `fetch_and_update` — when the key is present its
value is replaced by `f` of the old record, written back under the same byte
key; an absent key is left untouched. -/
def update {R : Type} : Tree R → Bytes → (R → R) → Tree R
  | [], _, _ => []
  | (k, v) :: rest, kb, f =>
    if k = kb then (k, f v) :: update rest kb f
    else (k, v) :: update rest kb f

/-- `Entity::remove`: tree deletion of the encoded key, nothing else. -/
def remove {R : Type} (t : Tree R) (kb : Bytes) : Tree R :=
  treeRemove t kb

/-- `Entity::get_with_prefix`: ordered prefix scan returning the records. -/
def getWithPfx {R : Type} (t : Tree R) (p : Bytes) : List R :=
  (treeScan t p).map (·.2)

end Entity

/-! ### A store-level operation trace, for the persistence claim -/

/-- One store-level mutation: a save of a record or a removal of a key. -/
inductive StoreOp (R : Type) where
  | save (r : R)
  | remove (kb : Bytes)

/-- The byte key an operation touches. -/
def opKey {R : Type} (keyB : R → Bytes) : StoreOp R → Bytes
  | .save r => keyB r
  | .remove kb => kb

/-- Apply one operation to a tree as the source does. -/
def applyOp {R : Type} (keyB : R → Bytes) (t : Tree R) : StoreOp R → Tree R
  | .save r => Entity.save keyB r t
  | .remove kb => Entity.remove t kb

/-- Apply a trace of operations, oldest first. -/
def applyOps {R : Type} (keyB : R → Bytes) (t : Tree R) (ops : List (StoreOp R)) : Tree R :=
  ops.foldl (applyOp keyB) t

/-! ### Basic tree lemmas -/

theorem treeGet_treeInsert_self {α : Type} (k : Bytes) (v : α) (t : Tree α) :
    treeGet (treeInsert k v t) k = some v := by
  induction t with
  | nil => simp [treeInsert, treeGet, List.find?]
  | cons kv rest ih =>
    obtain ⟨k', v'⟩ := kv
    by_cases h1 : lexLt k k' = true
    · simp [treeInsert, h1, treeGet, List.find?]
    · by_cases h2 : k = k'
      · subst h2
        simp [treeInsert, h1, treeGet, List.find?]
      · have hne : (k == k') = false := beq_eq_false_iff_ne.mpr h2
        have hne' : (k' == k) = false := beq_eq_false_iff_ne.mpr (Ne.symm h2)
        simp only [treeInsert, h1, if_false, hne, Bool.false_eq_true, if_neg]
        simpa [treeGet, List.find?, hne'] using ih

theorem treeGet_treeInsert_ne {α : Type} (k k' : Bytes) (v : α) (t : Tree α)
    (h : k' ≠ k) : treeGet (treeInsert k v t) k' = treeGet t k' := by
  have hne : (k == k') = false := beq_eq_false_iff_ne.mpr (Ne.symm h)
  induction t with
  | nil => simp [treeInsert, treeGet, List.find?, hne]
  | cons kv rest ih =>
    obtain ⟨ka, va⟩ := kv
    by_cases h1 : lexLt k ka = true
    · simp [treeInsert, h1, treeGet, List.find?, hne]
    · by_cases h2 : k = ka
      · subst h2
        simp [treeInsert, h1, treeGet, List.find?, hne]
      · have hka : (k == ka) = false := beq_eq_false_iff_ne.mpr h2
        simp only [treeInsert, h1, Bool.false_eq_true, if_neg, hka, if_false]
        by_cases h3 : ka = k'
        · simp [treeGet, List.find?, h3]
        · have hka' : (ka == k') = false := beq_eq_false_iff_ne.mpr h3
          simpa [treeGet, List.find?, hka'] using ih

theorem treeGet_treeRemove_self {α : Type} (t : Tree α) (k : Bytes) :
    treeGet (treeRemove t k) k = none := by
  induction t with
  | nil => simp [treeRemove, treeGet]
  | cons kv rest ih =>
    obtain ⟨ka, va⟩ := kv
    by_cases h : ka = k
    · subst h
      simp [treeRemove, treeGet]
    · have hne : (ka == k) = false := beq_eq_false_iff_ne.mpr h
      simp [treeRemove, treeGet, List.find?, hne]

theorem treeGet_treeRemove_ne {α : Type} (t : Tree α) (k k' : Bytes)
    (h : k' ≠ k) : treeGet (treeRemove t k) k' = treeGet t k' := by
  induction t with
  | nil => simp [treeRemove, treeGet]
  | cons kv rest ih =>
    obtain ⟨ka, va⟩ := kv
    by_cases hk : ka = k
    · subst hk
      have hne2 : (ka == k') = false := beq_eq_false_iff_ne.mpr fun hc => h hc.symm
      simpa [treeRemove, treeGet, List.find?, hne2] using ih
    · have hne : (ka == k) = false := beq_eq_false_iff_ne.mpr hk
      by_cases hk' : ka = k'
      · subst hk'
        simp [treeRemove, treeGet, List.find?, hne]
      · have hne' : (ka == k') = false := beq_eq_false_iff_ne.mpr hk'
        simpa [treeRemove, treeGet, List.find?, hne, hne'] using ih

/-! ### The database: a family of named trees (`sled::Db`) -/

/-- A database maps store names to trees (`db.open_tree(name)`). -/
abbrev Db (α : Type) := List (String × Tree α)

/-- The tree registered under `name`; a store never opened is empty. -/
def getTree {α : Type} : Db α → String → Tree α
  | [], _ => []
  | (n, t) :: rest, name => if n = name then t else getTree rest name

/-- `Entity::remove` seen at the database level: open the one tree named
`name` and delete key `k` there. -/
def dbRemove {α : Type} : Db α → String → Bytes → Db α
  | [], _, _ => []
  | (n, t) :: rest, name, k =>
    if n = name then (n, treeRemove t k) :: dbRemove rest name k
    else (n, t) :: dbRemove rest name k

theorem getTree_dbRemove_same {α : Type} (db : Db α) (name : String) (k : Bytes) :
    getTree (dbRemove db name k) name = treeRemove (getTree db name) k := by
  induction db with
  | nil => simp [getTree, dbRemove, treeRemove]
  | cons st rest ih =>
    obtain ⟨n, t⟩ := st
    by_cases h : n = name
    · subst h
      simp [getTree, dbRemove]
    · simpa [getTree, dbRemove, h] using ih

theorem getTree_dbRemove_other {α : Type} (db : Db α) (name other : String) (k : Bytes)
    (h : other ≠ name) : getTree (dbRemove db name k) other = getTree db other := by
  induction db with
  | nil => simp [getTree, dbRemove]
  | cons st rest ih =>
    obtain ⟨n, t⟩ := st
    by_cases hn : n = name
    · subst hn
      have hno : n ≠ other := fun hc => h hc.symm
      simpa [getTree, dbRemove, hno] using ih
    · by_cases ho : n = other
      · subst ho
        simp [getTree, dbRemove, hn]
      · simpa [getTree, dbRemove, hn, ho] using ih

/-! ### Update lemmas (`Entity::update` via sled `fetch_and_update`) -/

theorem update_of_absent {R : Type} (t : Tree R) (kb : Bytes) (f : R → R) :
    treeGet t kb = none → Entity.update t kb f = t := by
  induction t with
  | nil => intro _; simp [Entity.update]
  | cons kv rest ih =>
    intro h
    obtain ⟨ka, va⟩ := kv
    by_cases hk : ka = kb
    · subst hk
      simp [treeGet, List.find?] at h
    · have hne : (ka == kb) = false := beq_eq_false_iff_ne.mpr hk
      have hrest : treeGet rest kb = none := by
        simpa [treeGet, List.find?, hne] using h
      simp [Entity.update, hk]
      exact ih hrest

theorem treeGet_update_self {R : Type} (t : Tree R) (kb : Bytes) (v : R) (f : R → R) :
    treeGet t kb = some v → treeGet (Entity.update t kb f) kb = some (f v) := by
  induction t with
  | nil => intro h; simp [treeGet] at h
  | cons kv rest ih =>
    intro h
    obtain ⟨ka, va⟩ := kv
    by_cases hk : ka = kb
    · subst hk
      have hv : va = v := by simpa [treeGet, List.find?] using h
      subst hv
      simp [Entity.update, treeGet, List.find?]
    · have hne : (ka == kb) = false := beq_eq_false_iff_ne.mpr hk
      have hrest : treeGet rest kb = some v := by
        simpa [treeGet, List.find?, hne] using h
      simpa [Entity.update, treeGet, List.find?, hk, hne] using ih hrest

theorem treeGet_update_ne {R : Type} (t : Tree R) (kb k' : Bytes) (f : R → R)
    (h : k' ≠ kb) : treeGet (Entity.update t kb f) k' = treeGet t k' := by
  induction t with
  | nil => simp [Entity.update, treeGet]
  | cons kv rest ih =>
    obtain ⟨ka, va⟩ := kv
    by_cases hk : ka = kb
    · subst hk
      have hne : (ka == k') = false := beq_eq_false_iff_ne.mpr fun hc => h hc.symm
      simpa [Entity.update, treeGet, List.find?, hne] using ih
    · by_cases hk' : ka = k'
      · subst hk'
        simp [Entity.update, treeGet, List.find?, hk]
      · have hne' : (ka == k') = false := beq_eq_false_iff_ne.mpr hk'
        simpa [Entity.update, treeGet, List.find?, hk, hne'] using ih

theorem update_keys_unchanged {R : Type} (t : Tree R) (kb : Bytes) (f : R → R) :
    (Entity.update t kb f).map (·.1) = t.map (·.1) := by
  induction t with
  | nil => simp [Entity.update]
  | cons kv rest ih =>
    obtain ⟨ka, va⟩ := kv
    by_cases hk : ka = kb
    · subst hk
      simpa [Entity.update] using ih
    · simpa [Entity.update, hk] using ih

/-! ### Lexicographic order and the big-endian encoding -/

theorem lexLt_irrefl (l : Bytes) : lexLt l l = false := by
  induction l with
  | nil => rfl
  | cons a as ih => simp [lexLt, ih]

theorem lexLt_append_left (p r s : Bytes) (h : lexLt r s = true) :
    lexLt (p ++ r) (p ++ s) = true := by
  induction p with
  | nil => simpa using h
  | cons a as ih => simp [lexLt, ih]

theorem lexLt_append_of_eqlen (a b r s : Bytes) (hlen : a.length = b.length)
    (h : lexLt a b = true) : lexLt (a ++ r) (b ++ s) = true := by
  induction a generalizing b with
  | nil =>
    cases b with
    | nil => simp [lexLt] at h
    | cons x xs => simp at hlen
  | cons x xs ih =>
    cases b with
    | nil => simp at hlen
    | cons y ys =>
      simp only [lexLt, Bool.or_eq_true, Bool.and_eq_true, decide_eq_true_eq, beq_iff_eq] at h
      rcases h with h | ⟨hxy, h⟩
      · simp [lexLt, h]
      · subst hxy
        have := ih ys (by simpa using hlen) h
        simp [lexLt, this]

theorem beBytes_length (w n : Nat) : (beBytes w n).length = w := by
  induction w generalizing n with
  | zero => rfl
  | succ w ih => simp [beBytes, ih]

theorem beBytes_lt {w n m : Nat} (h : n < m) (hm : m < 256 ^ w) :
    lexLt (beBytes w n) (beBytes w m) = true := by
  induction w generalizing n m with
  | zero => omega
  | succ w ih =>
    have hq : n / 256 ^ w ≤ m / 256 ^ w := Nat.div_le_div_right h.le
    rcases lt_or_eq_of_le hq with hlt | heq
    · simp [beBytes, lexLt, hlt]
    · have hrn := Nat.div_add_mod n (256 ^ w)
      have hrm := Nat.div_add_mod m (256 ^ w)
      rw [heq] at hrn
      have hmod : n % 256 ^ w < m % 256 ^ w := by omega
      have hmodm : m % 256 ^ w < 256 ^ w :=
        Nat.mod_lt _ (Nat.pos_pow_of_pos w (by norm_num))
      have htail := ih hmod hmodm
      simp [beBytes, lexLt, heq, htail]

theorem foldl_beBytes (w : Nat) : ∀ (n acc : Nat), n < 256 ^ w →
    (beBytes w n).foldl (fun a b => a * 256 + b) acc = acc * 256 ^ w + n := by
  induction w with
  | zero => intro n acc hn; interval_cases n; simp [beBytes]
  | succ w ih =>
    intro n acc hn
    have hmod : n % 256 ^ w < 256 ^ w :=
      Nat.mod_lt _ (Nat.pos_pow_of_pos w (by norm_num))
    have := ih (n % 256 ^ w) (acc * 256 + n / 256 ^ w) hmod
    have hdm := Nat.div_add_mod n (256 ^ w)
    simp only [beBytes, List.foldl_cons]
    rw [this]
    have hpow : 256 ^ (w + 1) = 256 ^ w * 256 := by ring
    -- (acc * 256 + n / 256 ^ w) * 256 ^ w + n % 256 ^ w = acc * 256 ^ (w+1) + n
    nlinarith [hdm, hpow]

theorem fromBeBytes_beBytes {w n : Nat} (hn : n < 256 ^ w) :
    fromBeBytes (beBytes w n) = n := by
  simpa [fromBeBytes] using foldl_beBytes w n 0 hn

theorem beBytes_inj {w n m : Nat} (hn : n < 256 ^ w) (hm : m < 256 ^ w)
    (h : beBytes w n = beBytes w m) : n = m := by
  have h1 := fromBeBytes_beBytes hn
  have h2 := fromBeBytes_beBytes hm
  rw [h] at h1
  omega

theorem bytePfx_append_self (p r : Bytes) : bytePfx p (p ++ r) = true := by
  induction p with
  | nil => rfl
  | cons a as ih => simp [bytePfx, ih]

theorem bytePfx_eq_of_eqlen (p q r : Bytes) (hlen : p.length = q.length)
    (h : bytePfx p (q ++ r) = true) : p = q := by
  induction p generalizing q with
  | nil =>
    cases q with
    | nil => rfl
    | cons y ys => simp at hlen
  | cons x xs ih =>
    cases q with
    | nil => simp at hlen
    | cons y ys =>
      simp only [List.cons_append, bytePfx, Bool.and_eq_true, beq_iff_eq] at h
      obtain ⟨hxy, h⟩ := h
      subst hxy
      rw [ih ys (by simpa using hlen) h]

theorem lexLt_asymm (a : Bytes) : ∀ b : Bytes, lexLt a b = true → lexLt b a = false := by
  induction a with
  | nil =>
    intro b h
    cases b with
    | nil => simp [lexLt] at h
    | cons y ys => rfl
  | cons x xs ih =>
    intro b h
    cases b with
    | nil => simp [lexLt] at h
    | cons y ys =>
      simp only [lexLt, Bool.or_eq_true, Bool.and_eq_true, decide_eq_true_eq,
        beq_iff_eq] at h
      rcases h with h | ⟨hxy, h⟩
      · have h1 : ¬ y < x := Nat.lt_asymm h
        have h2 : y ≠ x := ne_of_gt h
        simp [lexLt, h1, h2]
      · subst hxy
        simp [lexLt, ih ys h]

theorem lt_of_lexLt_beBytes {w n m : Nat} (hn : n < 256 ^ w) (hm : m < 256 ^ w)
    (h : lexLt (beBytes w n) (beBytes w m) = true) : n < m := by
  rcases Nat.lt_trichotomy n m with h1 | h1 | h1
  · exact h1
  · subst h1
    rw [lexLt_irrefl] at h
    exact absurd h (by simp)
  · have := lexLt_asymm _ _ (beBytes_lt h1 hn)
    rw [this] at h
    exact absurd h (by simp)

theorem bytePfx_u32 {a b : Nat} (ha : a < 2 ^ 32) (hb : b < 2 ^ 32) (r : Bytes) :
    bytePfx (u32AsBytes a) (u32AsBytes b ++ r) = true ↔ a = b := by
  constructor
  · intro h
    have := bytePfx_eq_of_eqlen _ _ _ (by simp [u32AsBytes, beBytes_length]) h
    exact beBytes_inj (by simpa [Nat.pow_mul] using ha) (by simpa [Nat.pow_mul] using hb) this
  · intro h
    subst h
    exact bytePfx_append_self _ _

/-! ### Sorted trees, the maximal key, and auto-increment -/

/-- sled's tree invariant: keys strictly ascending in lexicographic order. -/
def TSorted {α : Type} (t : Tree α) : Prop :=
  t.Pairwise (fun a b => lexLt a.1 b.1 = true)

/-- Well-formedness of a `u32`-keyed store: every key is the 4-byte
big-endian encoding of a number below `2 ^ 32`. -/
def U32Keys {α : Type} (t : Tree α) : Prop :=
  ∀ kv ∈ t, ∃ n, n < 2 ^ 32 ∧ kv.1 = u32AsBytes n

/-- Numerically largest decoded key of the tree (zero when empty). -/
def maxKey {α : Type} (t : Tree α) : Nat :=
  t.foldr (fun kv m => max (fromBeBytes kv.1) m) 0

theorem le_maxKey {α : Type} (t : Tree α) (kv : Bytes × α) (h : kv ∈ t) :
    fromBeBytes kv.1 ≤ maxKey t := by
  induction t with
  | nil => simp at h
  | cons kv2 rest ih =>
    rcases List.mem_cons.mp h with h | h
    · subst h
      exact le_max_left _ _
    · exact le_trans (ih h) (le_max_right _ _)

theorem pow_256_4 : (256 : Nat) ^ 4 = 2 ^ 32 := by norm_num

theorem treeLast_decodes_maxKey {α : Type} (t : Tree α) (hs : TSorted t)
    (hk : U32Keys t) (hne : t ≠ []) :
    (treeLast t).map (fun kv => fromBeBytes kv.1) = some (maxKey t) := by
  induction t with
  | nil => simp at hne
  | cons kv rest ih =>
    cases rest with
    | nil => simp [treeLast, maxKey]
    | cons kv2 rest2 =>
      obtain ⟨hhead, htail⟩ := List.pairwise_cons.mp hs
      have hk2 : U32Keys (kv2 :: rest2) := fun x hx => hk x (List.mem_cons_of_mem _ hx)
      have ihr := ih htail hk2 (by simp)
      obtain ⟨n, hn, hkeq⟩ := hk kv (List.mem_cons_self _ _)
      obtain ⟨n2, hn2, hkeq2⟩ := hk kv2 (List.mem_cons_of_mem _ (List.mem_cons_self _ _))
      have hlt : lexLt kv.1 kv2.1 = true := hhead kv2 (List.mem_cons_self _ _)
      rw [hkeq, hkeq2] at hlt
      have hnn2 : n < n2 := lt_of_lexLt_beBytes (by rw [pow_256_4]; exact hn)
        (by rw [pow_256_4]; exact hn2) hlt
      have hd : fromBeBytes kv.1 = n := by
        rw [hkeq]; exact fromBeBytes_beBytes (by rw [pow_256_4]; exact hn)
      have hd2 : fromBeBytes kv2.1 = n2 := by
        rw [hkeq2]; exact fromBeBytes_beBytes (by rw [pow_256_4]; exact hn2)
      have hle : fromBeBytes kv.1 ≤ maxKey (kv2 :: rest2) := by
        have := le_maxKey (kv2 :: rest2) kv2 (List.mem_cons_self _ _)
        omega
      have hmax : maxKey (kv :: kv2 :: rest2) = maxKey (kv2 :: rest2) := by
        simp only [maxKey, List.foldr_cons]
        have : maxKey (kv2 :: rest2) = (kv2 :: rest2).foldr
          (fun kv m => max (fromBeBytes kv.1) m) 0 := rfl
        omega
      rw [hmax]
      simpa [treeLast] using ihr

/-- `AutoIncrementEntity::get_next_key`: decode the tree's last key and return
its successor under wrapping 32-bit addition, or zero for an empty tree. -/
def get_next_key {R : Type} (t : Tree R) : Nat :=
  match treeLast t with
  | some (k, _) => (fromBeBytes k + 1) % 2 ^ 32
  | none => 0

/-- `AutoIncrementEntity::save_next`: assign `get_next_key` as the record's
key, save, and return the assigned key. -/
def save_next {R : Type} (getKey : R → Nat) (setKey : Nat → R → R)
    (r : R) (t : Tree R) : Nat × Tree R :=
  let nk := get_next_key t
  (nk, Entity.save (fun x => u32AsBytes (getKey x)) (setKey nk r) t)

/-! ### Claim theorems -/

/-- C1: a saved record is returned by `get` under its key; it stays readable
across any later saves and removes addressed to other keys, and disappears
once its own key is removed. -/
theorem saved_record_persists {R : Type} (keyB : R → Bytes) (r : R) (t : Tree R)
    (ops : List (StoreOp R)) (hops : ∀ op ∈ ops, opKey keyB op ≠ keyB r) :
    Entity.get (applyOps keyB (Entity.save keyB r t) ops) (keyB r) = some r ∧
    Entity.get (Entity.remove (applyOps keyB (Entity.save keyB r t) ops) (keyB r))
      (keyB r) = none := by
  have main : ∀ (l : List (StoreOp R)) (t' : Tree R),
      (∀ op ∈ l, opKey keyB op ≠ keyB r) →
      treeGet t' (keyB r) = some r →
      treeGet (applyOps keyB t' l) (keyB r) = some r := by
    intro l
    induction l with
    | nil => intro t' _ h; simpa [applyOps] using h
    | cons op rest ih =>
      intro t' hl h
      have hop : opKey keyB op ≠ keyB r := hl op (List.mem_cons_self _ _)
      have hrest : ∀ o ∈ rest, opKey keyB o ≠ keyB r :=
        fun o ho => hl o (List.mem_cons_of_mem _ ho)
      have hstep : treeGet (applyOp keyB t' op) (keyB r) = some r := by
        cases op with
        | save r' =>
          have hne : keyB r' ≠ keyB r := by simpa [opKey] using hop
          rw [applyOp, Entity.save, treeGet_treeInsert_ne _ _ _ _ (Ne.symm hne)]
          exact h
        | remove kb =>
          have hne : kb ≠ keyB r := by simpa [opKey] using hop
          rw [applyOp, Entity.remove, treeGet_treeRemove_ne _ _ _ (Ne.symm hne)]
          exact h
      simpa [applyOps] using ih (applyOp keyB t' op) hrest hstep
  refine ⟨?_, ?_⟩
  · exact main ops _ hops (by simp [Entity.save, treeGet_treeInsert_self])
  · exact treeGet_treeRemove_self _ _

/-- C4: every implemented key encoding is strictly monotone from the key
type's order (numeric for `u32`, byte-lexicographic for `String`, and
componentwise-lexicographic for the tuples) into lexicographic byte order. -/
theorem as_bytes_order_preserving :
    (∀ a b : Nat, a < b → b < 2 ^ 32 →
      lexLt (u32AsBytes a) (u32AsBytes b) = true) ∧
    (∀ s1 s2 : Bytes, lexLt s1 s2 = true →
      lexLt (stringAsBytes s1) (stringAsBytes s2) = true) ∧
    (∀ (a1 a2 : Nat) (s1 s2 : Bytes), a2 < 2 ^ 32 →
      (a1 < a2 ∨ (a1 = a2 ∧ lexLt s1 s2 = true)) →
      lexLt (u32StringAsBytes (a1, s1)) (u32StringAsBytes (a2, s2)) = true) ∧
    (∀ a1 a2 b1 b2 : Nat, a2 < 2 ^ 32 → b2 < 2 ^ 32 →
      (a1 < a2 ∨ (a1 = a2 ∧ b1 < b2)) →
      lexLt (u32u32AsBytes (a1, b1)) (u32u32AsBytes (a2, b2)) = true) := by
  refine ⟨?_, ?_, ?_, ?_⟩
  · intro a b hab hb
    exact beBytes_lt hab (by rw [pow_256_4]; exact hb)
  · intro s1 s2 h
    simpa [stringAsBytes] using h
  · intro a1 a2 s1 s2 ha2 h
    simp only [u32StringAsBytes, stringAsBytes]
    rcases h with h | ⟨heq, h⟩
    · exact lexLt_append_of_eqlen _ _ _ _
        (by simp [u32AsBytes, beBytes_length])
        (beBytes_lt h (by rw [pow_256_4]; exact ha2))
    · subst heq
      exact lexLt_append_left _ _ _ h
  · intro a1 a2 b1 b2 ha2 hb2 h
    simp only [u32u32AsBytes]
    rcases h with h | ⟨heq, h⟩
    · exact lexLt_append_of_eqlen _ _ _ _
        (by simp [u32AsBytes, beBytes_length])
        (beBytes_lt h (by rw [pow_256_4]; exact ha2))
    · subst heq
      exact lexLt_append_left _ _ _
        (beBytes_lt h (by rw [pow_256_4]; exact hb2))

/-- C5: a tuple key encodes as the concatenation of its component encodings,
and on a well-formed store a prefix scan with the 4-byte first component
returns exactly the records whose key has that first component, in key
order. -/
theorem tuple_prefix_scan_exact {R X : Type} (encX : X → Bytes) (keyOf : R → Nat × X)
    (t : Tree R) (a : Nat) (ha : a < 2 ^ 32)
    (hwf : ∀ kv ∈ t, (keyOf kv.2).1 < 2 ^ 32 ∧
      kv.1 = u32AsBytes (keyOf kv.2).1 ++ encX (keyOf kv.2).2)
    (hs : TSorted t) :
    (∀ k : Nat × Bytes, u32StringAsBytes k = u32AsBytes k.1 ++ stringAsBytes k.2) ∧
    (∀ k : Nat × Nat, u32u32AsBytes k = u32AsBytes k.1 ++ u32AsBytes k.2) ∧
    Entity.getWithPfx t (u32AsBytes a) =
      (t.filter (fun kv => (keyOf kv.2).1 == a)).map (·.2) ∧
    TSorted (treeScan t (u32AsBytes a)) := by
  refine ⟨fun k => rfl, fun k => rfl, ?_, ?_⟩
  · unfold Entity.getWithPfx treeScan
    congr 1
    apply List.filter_congr
    intro kv hkv
    obtain ⟨hb, hkeq⟩ := hwf kv hkv
    rw [hkeq]
    have hiff := bytePfx_u32 ha hb (encX (keyOf kv.2).2)
    by_cases hca : (keyOf kv.2).1 = a
    · rw [hca, show (a == a) = true from beq_self_eq_true a]
      exact bytePfx_append_self _ _
    · rw [show ((keyOf kv.2).1 == a) = false from beq_eq_false_iff_ne.mpr hca]
      refine Bool.eq_false_iff.mpr ?_
      intro hcontra
      exact hca (hiff.mp hcontra).symm
  · exact List.Pairwise.filter _ hs

/-- C6 (amended): `get_next_key` returns 0 on an empty tree and otherwise the
numerically largest stored key plus one reduced modulo `2 ^ 32`; consequently
two `save_next` calls on an empty store assign keys 0 and 1. -/
theorem get_next_key_spec {R : Type} (t : Tree R) (hs : TSorted t) (hk : U32Keys t) :
    (t = [] → get_next_key t = 0) ∧
    (t ≠ [] → get_next_key t = (maxKey t + 1) % 2 ^ 32) ∧
    (∀ (getKey : R → Nat) (setKey : Nat → R → R) (r1 r2 : R),
      (∀ n r, getKey (setKey n r) = n) →
      (save_next getKey setKey r1 []).1 = 0 ∧
      (save_next getKey setKey r2 (save_next getKey setKey r1 []).2).1 = 1) := by
  refine ⟨?_, ?_, ?_⟩
  · intro he; subst he; rfl
  · intro hne
    have hmax := treeLast_decodes_maxKey t hs hk hne
    cases hlast : treeLast t with
    | none =>
      exact absurd (List.getLast?_eq_none_iff.mp hlast) hne
    | some kv =>
      rw [hlast] at hmax
      have : fromBeBytes kv.1 = maxKey t := by simpa using hmax
      obtain ⟨k, v⟩ := kv
      simp only [get_next_key, hlast]
      simp only at this
      rw [this]
  · intro getKey setKey r1 r2 hcoh
    have h1 : (save_next getKey setKey r1 []).1 = 0 := by
      simp [save_next, get_next_key, treeLast]
    refine ⟨h1, ?_⟩
    have htree : (save_next getKey setKey r1 []).2 =
        [(u32AsBytes 0, setKey 0 r1)] := by
      simp [save_next, get_next_key, treeLast, Entity.save, treeInsert, hcoh]
    rw [htree]
    have hdec : fromBeBytes (u32AsBytes 0) = 0 :=
      fromBeBytes_beBytes (by norm_num)
    simp [save_next, get_next_key, treeLast, hdec]

/-- C7: the Entity Store primitive `remove` deletes exactly the entry at the
given key of its own tree: every other key of that tree and every other
store's tree are unchanged, and no relation policy is consulted. -/
theorem remove_touches_only_its_key {α : Type} (db : Db α) (name : String) (k : Bytes) :
    treeGet (getTree (dbRemove db name k) name) k = none ∧
    (∀ k', k' ≠ k →
      treeGet (getTree (dbRemove db name k) name) k' = treeGet (getTree db name) k') ∧
    (∀ other, other ≠ name → getTree (dbRemove db name k) other = getTree db other) := by
  refine ⟨?_, ?_, ?_⟩
  · rw [getTree_dbRemove_same]
    exact treeGet_treeRemove_self _ _
  · intro k' hk
    rw [getTree_dbRemove_same]
    exact treeGet_treeRemove_ne _ _ _ hk
  · intro other ho
    exact getTree_dbRemove_other _ _ _ _ ho

/-- C8: `update` on an absent key reports no error and writes nothing: the
tree is unchanged and the key remains absent. -/
theorem update_missing_key_is_noop {R : Type} (t : Tree R) (kb : Bytes) (f : R → R)
    (h : treeGet t kb = none) :
    Entity.update t kb f = t ∧ treeGet (Entity.update t kb f) kb = none := by
  have he := update_of_absent t kb f h
  exact ⟨he, by rw [he]; exact h⟩

/-- C9: `update` on a present key writes the mutated record back under the
original lookup key — the mutator `f` is arbitrary, so this holds even when it
changes the record's key field — touches no other key, and leaves the tree's
key set unchanged. -/
theorem update_writes_under_lookup_key {R : Type} (t : Tree R) (kb : Bytes)
    (v : R) (f : R → R) (h : treeGet t kb = some v) :
    treeGet (Entity.update t kb f) kb = some (f v) ∧
    (∀ k', k' ≠ kb → treeGet (Entity.update t kb f) k' = treeGet t k') ∧
    (Entity.update t kb f).map (·.1) = t.map (·.1) :=
  ⟨treeGet_update_self t kb v f h,
   fun k' hk => treeGet_update_ne t kb k' f hk,
   update_keys_unchanged t kb f⟩

/-- C10: `get_next_key` computes the successor by wrapping 32-bit addition:
when the tree's last key decodes to `u32::MAX` it returns 0, so `save_next`
assigns key 0 and silently overwrites any record already stored there. -/
theorem get_next_key_wraps_to_zero {R : Type} (getKey : R → Nat) (setKey : Nat → R → R)
    (t : Tree R) (v r r0 : R)
    (hlast : treeLast t = some (u32AsBytes (2 ^ 32 - 1), v))
    (hcoh : getKey (setKey 0 r) = 0)
    (h0 : treeGet t (u32AsBytes 0) = some r0) :
    get_next_key t = 0 ∧
    (save_next getKey setKey r t).1 = 0 ∧
    treeGet (save_next getKey setKey r t).2 (u32AsBytes 0) = some (setKey 0 r) := by
  have hdec : fromBeBytes (u32AsBytes (2 ^ 32 - 1)) = 2 ^ 32 - 1 :=
    fromBeBytes_beBytes (by norm_num)
  have hgnk : get_next_key t = 0 := by
    simp only [get_next_key, hlast, hdec]
    norm_num
  refine ⟨hgnk, ?_, ?_⟩
  · simp [save_next, hgnk]
  · simp only [save_next, hgnk, Entity.save, hcoh]
    exact treeGet_treeInsert_self _ _ _

/-! ### Concrete stores used by the witnesses and the counterexample -/

/-- One-byte key encoding for the C1 witness. -/
def natKeyB : Nat → Bytes := fun n => [n]

/-- Two-store database for the C7 witness. -/
def dbw : Db Nat := [("entity_1", [([1], 10)]), ("entity_2", [([2], 20)])]

/-- `u32`-keyed store holding key 3, for the C6 witness. -/
def t6w : Tree (Nat × Nat) := [(u32AsBytes 3, (3, 30))]

/-- Store whose only key is `u32::MAX`, for the C6 counterexample. -/
def tMax : Tree (Nat × Nat) := [(u32AsBytes (2 ^ 32 - 1), (2 ^ 32 - 1, 8))]

/-- Store holding keys 0 and `u32::MAX`, for the C10 witness. -/
def t10w : Tree (Nat × Nat) :=
  [(u32AsBytes 0, (0, 7)), (u32AsBytes (2 ^ 32 - 1), (2 ^ 32 - 1, 8))]

/-- Single-record `u32`-keyed store, for the C9 witness. -/
def t9w : Tree (Nat × Nat) := [(u32AsBytes 1, (1, 10))]

/-- Tuple-keyed store with first components 1, 1, 2, for the C5 witness. -/
def t5w : Tree ((Nat × Bytes) × Nat) :=
  [(u32AsBytes 1 ++ [5], ((1, [5]), 100)),
   (u32AsBytes 1 ++ [7], ((1, [7]), 200)),
   (u32AsBytes 2 ++ [], ((2, ([] : Bytes)), 300))]

/-! ### Witnesses and counterexample -/

/-- C1 witness: key 5 survives a save of key 7 and a removal of key 3. -/
theorem saved_record_persists_witness :
    (∀ op ∈ ([StoreOp.save 7, StoreOp.remove [3]] : List (StoreOp Nat)),
      opKey natKeyB op ≠ natKeyB 5) ∧
    (Entity.get (applyOps natKeyB (Entity.save natKeyB 5 [])
        [StoreOp.save 7, StoreOp.remove [3]]) (natKeyB 5) = some 5 ∧
     Entity.get (Entity.remove (applyOps natKeyB (Entity.save natKeyB 5 [])
        [StoreOp.save 7, StoreOp.remove [3]]) (natKeyB 5)) (natKeyB 5) = none) :=
  ⟨by decide, saved_record_persists natKeyB 5 [] _ (by decide)⟩

/-- C4 witness: each conjunct evaluated at concrete keys. -/
theorem as_bytes_order_preserving_witness :
    ((1 : Nat) < 2 ∧ (2 : Nat) < 2 ^ 32 ∧
      lexLt (u32AsBytes 1) (u32AsBytes 2) = true) ∧
    (lexLt [1] [2] = true ∧ lexLt (stringAsBytes [1]) (stringAsBytes [2]) = true) ∧
    lexLt (u32StringAsBytes (1, [9])) (u32StringAsBytes (2, [])) = true ∧
    lexLt (u32u32AsBytes (3, 9)) (u32u32AsBytes (3, 10)) = true :=
  ⟨⟨by norm_num, by norm_num,
      as_bytes_order_preserving.1 1 2 (by norm_num) (by norm_num)⟩,
   ⟨by decide, as_bytes_order_preserving.2.1 [1] [2] (by decide)⟩,
   as_bytes_order_preserving.2.2.1 1 2 [9] [] (by norm_num) (Or.inl (by norm_num)),
   as_bytes_order_preserving.2.2.2 3 3 9 10 (by norm_num) (by norm_num)
     (Or.inr ⟨rfl, by norm_num⟩)⟩

/-- C5 witness: scanning `t5w` with first component 1 yields exactly its two
matching records, in key order. -/
theorem tuple_prefix_scan_exact_witness :
    (1 : Nat) < 2 ^ 32 ∧
    Entity.getWithPfx t5w (u32AsBytes 1) =
      (t5w.filter (fun kv => (Prod.fst kv.2).1 == 1)).map (·.2) ∧
    TSorted (treeScan t5w (u32AsBytes 1)) := by
  have hwf : ∀ kv ∈ t5w, (Prod.fst kv.2).1 < 2 ^ 32 ∧
      kv.1 = u32AsBytes (Prod.fst kv.2).1 ++ (fun s : Bytes => s) (Prod.fst kv.2).2 := by
    intro kv hkv
    simp only [t5w, List.mem_cons, List.not_mem_nil, or_false] at hkv
    rcases hkv with h | h | h <;> subst h <;> exact ⟨by norm_num, rfl⟩
  have hs : TSorted t5w := by
    simp only [TSorted, t5w]
    refine List.Pairwise.cons ?_ (List.Pairwise.cons ?_ (List.pairwise_singleton _ _))
    · intro b hb
      simp only [List.mem_cons, List.not_mem_nil, or_false] at hb
      rcases hb with h | h <;> subst h <;> decide
    · intro b hb
      simp only [List.mem_singleton] at hb
      subst hb; decide
  have h := tuple_prefix_scan_exact (fun s : Bytes => s) Prod.fst t5w 1
    (by norm_num) hwf hs
  exact ⟨by norm_num, h.2.2.1, h.2.2.2⟩

/-- C6 counterexample: with `u32::MAX` stored, `get_next_key` returns 0, not
the numerically largest stored key plus one. -/
theorem get_next_key_not_plus_one_at_max :
    get_next_key tMax = 0 ∧ maxKey tMax = 2 ^ 32 - 1 ∧
    get_next_key tMax ≠ maxKey tMax + 1 := by
  have hdec : fromBeBytes (u32AsBytes 4294967295) = 4294967295 :=
    fromBeBytes_beBytes (by norm_num)
  have h1 : get_next_key tMax = 0 := by
    simp only [get_next_key, tMax, treeLast, List.getLast?_singleton]
    norm_num [hdec]
  have h2 : maxKey tMax = 2 ^ 32 - 1 := by
    simp only [maxKey, tMax, List.foldr_cons, List.foldr_nil]
    norm_num [hdec]
  exact ⟨h1, h2, by rw [h1, h2]; norm_num⟩

/-- C6 witness: the amended statement evaluated on `t6w` and two `save_next`
calls on an empty store. -/
theorem get_next_key_spec_witness :
    t6w ≠ [] ∧
    get_next_key t6w = (maxKey t6w + 1) % 2 ^ 32 ∧
    (save_next Prod.fst (fun n r => (n, r.2)) ((0, 7) : Nat × Nat) []).1 = 0 ∧
    (save_next Prod.fst (fun n r => (n, r.2)) ((0, 8) : Nat × Nat)
      (save_next Prod.fst (fun n r => (n, r.2)) ((0, 7) : Nat × Nat) []).2).1 = 1 := by
  have hs : TSorted t6w := by
    simp [TSorted, t6w]
  have hk : U32Keys t6w := by
    intro kv hkv
    simp only [t6w, List.mem_singleton] at hkv
    exact ⟨3, by norm_num, by simp [hkv]⟩
  have h := get_next_key_spec t6w hs hk
  have hsaves := h.2.2 Prod.fst (fun n r => (n, r.2)) (0, 7) (0, 8) (fun n r => rfl)
  exact ⟨by simp [t6w], h.2.1 (by simp [t6w]), hsaves.1, hsaves.2⟩

/-- C7 witness: removing key `[1]` from store `entity_1` of `dbw`. -/
theorem remove_touches_only_its_key_witness :
    ([2] : Bytes) ≠ [1] ∧ ("entity_2" : String) ≠ "entity_1" ∧
    treeGet (getTree (dbRemove dbw "entity_1" [1]) "entity_1") [1] = none ∧
    treeGet (getTree (dbRemove dbw "entity_1" [1]) "entity_1") [2] =
      treeGet (getTree dbw "entity_1") [2] ∧
    getTree (dbRemove dbw "entity_1" [1]) "entity_2" = getTree dbw "entity_2" :=
  ⟨by decide, by decide,
   (remove_touches_only_its_key dbw "entity_1" [1]).1,
   (remove_touches_only_its_key dbw "entity_1" [1]).2.1 [2] (by decide),
   (remove_touches_only_its_key dbw "entity_1" [1]).2.2 "entity_2" (by decide)⟩

/-- C8 witness: updating the absent key `[2]` leaves the store untouched. -/
theorem update_missing_key_is_noop_witness :
    treeGet ([([1], 10)] : Tree Nat) [2] = none ∧
    (Entity.update ([([1], 10)] : Tree Nat) [2] (fun n => n + 1) = [([1], 10)] ∧
     treeGet (Entity.update ([([1], 10)] : Tree Nat) [2] (fun n => n + 1)) [2] = none) :=
  ⟨by decide, update_missing_key_is_noop _ _ _ (by decide)⟩

/-- C9 witness: a mutator that rewrites the key field still writes back under
the original lookup key. -/
theorem update_writes_under_lookup_key_witness :
    treeGet t9w (u32AsBytes 1) = some (1, 10) ∧
    ([0, 0, 0, 9] : Bytes) ≠ u32AsBytes 1 ∧
    treeGet (Entity.update t9w (u32AsBytes 1) (fun r => (99, r.2 + 1)))
      (u32AsBytes 1) = some (99, 11) ∧
    treeGet (Entity.update t9w (u32AsBytes 1) (fun r => (99, r.2 + 1)))
      [0, 0, 0, 9] = treeGet t9w [0, 0, 0, 9] ∧
    (Entity.update t9w (u32AsBytes 1) (fun r => (99, r.2 + 1))).map (·.1) =
      t9w.map (·.1) := by
  have h := update_writes_under_lookup_key t9w (u32AsBytes 1) (1, 10)
    (fun r => (99, r.2 + 1)) (by decide)
  exact ⟨by decide, by decide, h.1, h.2.1 [0, 0, 0, 9] (by decide), h.2.2⟩

/-- C10 witness: with keys 0 and `u32::MAX` stored, `save_next` assigns key 0
and overwrites the record previously stored there. -/
theorem get_next_key_wraps_to_zero_witness :
    treeLast t10w = some (u32AsBytes (2 ^ 32 - 1), ((2 ^ 32 - 1 : Nat), 8)) ∧
    treeGet t10w (u32AsBytes 0) = some (0, 7) ∧
    (get_next_key t10w = 0 ∧
     (save_next Prod.fst (fun n r => (n, r.2)) ((0, 99) : Nat × Nat) t10w).1 = 0 ∧
     treeGet (save_next Prod.fst (fun n r => (n, r.2)) ((0, 99) : Nat × Nat) t10w).2
       (u32AsBytes 0) = some (0, 99)) :=
  ⟨by decide, by decide,
   get_next_key_wraps_to_zero Prod.fst (fun n r => (n, r.2)) t10w
     (2 ^ 32 - 1, 8) (0, 99) (0, 7) (by decide) rfl (by decide)⟩

/-! ### Relation engine, modelled from the specification

`relation.rs` is not among the sources (only its callers and tests are), so
the policy-aware deletion below is modelled from the specification §4.3:
plan a depth-first walk over the implicit (sibling, child) and explicit
(free) edges, cascading through `Cascade`, aborting on `Error`, not recursing
through `BreakLink`; then apply the plan with the store primitive `remove`
and clean up edge records. -/

/-- Modelled from the spec: the three deletion policies of the missing
`relation.rs`, re-exported by the crate root as `DeletionBehaviour`. -/
inductive DeletionBehaviour where
  | Cascade
  | BreakLink
  | Error
deriving DecidableEq

/-- A node of the relation graph: store name and encoded key. -/
abbrev Node := String × Bytes

/-- Modelled from the spec: the persisted family descriptor — per store, the
sibling and child target stores with their deletion policies. -/
structure FamilyDescriptor where
  sibling_trees : List (String × DeletionBehaviour)
  child_trees : List (String × DeletionBehaviour)
deriving DecidableEq

/-- The descriptor catalog, keyed by store name. -/
abbrev Descs := List (String × FamilyDescriptor)

/-- Descriptor lookup; an unregistered store has no declared relations. -/
def getDesc : Descs → String → FamilyDescriptor
  | [], _ => ⟨[], []⟩
  | (n, d) :: rest, name => if n = name then d else getDesc rest name

/-- Modelled from the spec: database state seen by the relation engine — the
entity trees (bodies opaque byte strings) plus the free-relation records,
each carrying the policy applied on deleting its first node and the policy
applied on deleting its second. -/
structure DbState where
  trees : Db Bytes
  freeRels : List ((Node × Node) × (DeletionBehaviour × DeletionBehaviour))
deriving DecidableEq

/-- Modelled from the spec: the outgoing edges the traversal discovers at a
record — a sibling edge per declared sibling store holding the same key, a
child edge per record found by prefix scan in a declared child store, and
the free relations incident to the node, in either direction. -/
def outEdges (ds : Descs) (st : DbState) (n : Node) : List (Node × DeletionBehaviour) :=
  let d := getDesc ds n.1
  (d.sibling_trees.filterMap (fun sp =>
      if (treeGet (getTree st.trees sp.1) n.2).isSome
      then some ((sp.1, n.2), sp.2) else none))
  ++ (d.child_trees.flatMap (fun cp =>
      (treeScan (getTree st.trees cp.1) n.2).map (fun kv => ((cp.1, kv.1), cp.2))))
  ++ (st.freeRels.filterMap (fun e =>
      if e.1.1 = n then some (e.1.2, e.2.1)
      else if e.1.2 = n then some (e.1.1, e.2.2) else none))

/-- Modelled from the spec: phase 1 (planning) — depth-first walk collecting
the Cascade closure into the visited set, aborting (`none`) on any `Error`
edge; `BreakLink` edges are not recursed into.  `fuel` bounds the recursion;
running out also yields `none`. -/
def planGo (ds : Descs) (st : DbState) : Nat → List Node → List Node → Option (List Node)
  | _, visited, [] => some visited
  | 0, _, _ :: _ => none
  | fuel + 1, visited, n :: todo =>
    if n ∈ visited then planGo ds st fuel visited todo
    else if (outEdges ds st n).any (fun e => e.2 == DeletionBehaviour.Error) then none
    else planGo ds st fuel (n :: visited)
      (((outEdges ds st n).filterMap
          (fun e => if e.2 = DeletionBehaviour.Cascade then some e.1 else none)) ++ todo)

/-- Modelled from the spec: phases 2 and 3 — delete every planned record with
the store primitive `remove`, then drop every free-relation record incident
to a deleted node (covering both `BreakLink` unlinking and the cascaded
records' edge cleanup; sibling and child edges have no stored record). -/
def applyPlan (st : DbState) (plan : List Node) : DbState :=
  { trees := plan.foldl (fun db n => dbRemove db n.1 n.2) st.trees
    freeRels := st.freeRels.filter
      (fun e => decide (e.1.1 ∉ plan) && decide (e.1.2 ∉ plan)) }

/-- Modelled from the spec: errors surfaced by the policy-aware removal. -/
inductive RemoveErr where
  | PolicyViolation
deriving DecidableEq

/-- Modelled from the spec: the Entity Facade's policy-aware `remove` — the
side-effect-free planning phase runs first; on abort the database is returned
untouched with `PolicyViolation`, otherwise the plan is applied. -/
def facadeRemove (ds : Descs) (fuel : Nat) (st : DbState) (root : Node) :
    DbState × Option RemoveErr :=
  match planGo ds st fuel [] [root] with
  | none => (st, some RemoveErr.PolicyViolation)
  | some plan => (applyPlan st plan, none)

/-- Transitive reachability along Cascade edges of the relation graph. -/
inductive CascadeReach (ds : Descs) (st : DbState) : Node → Node → Prop where
  | refl (n : Node) : CascadeReach ds st n n
  | step {a b c : Node} : CascadeReach ds st a b →
      (c, DeletionBehaviour.Cascade) ∈ outEdges ds st b → CascadeReach ds st a c

/-- Soundness of the planning walk: a successful plan contains the initial
worklist and the visited set, and every planned node not initially visited
passed the Error check and has its Cascade successors planned as well. -/
theorem planGo_invariant (ds : Descs) (st : DbState) :
    ∀ (fuel : Nat) (visited todo out : List Node),
      planGo ds st fuel visited todo = some out →
      (∀ n ∈ visited, n ∈ out) ∧ (∀ n ∈ todo, n ∈ out) ∧
      (∀ n ∈ out, n ∈ visited ∨
        ((∀ e ∈ outEdges ds st n, e.2 ≠ DeletionBehaviour.Error) ∧
         (∀ c, (c, DeletionBehaviour.Cascade) ∈ outEdges ds st n → c ∈ out))) := by
  intro fuel
  induction fuel with
  | zero =>
    intro visited todo out h
    cases todo with
    | nil =>
      simp only [planGo, Option.some.injEq] at h
      subst h
      exact ⟨fun n hn => hn, by simp, fun n hn => Or.inl hn⟩
    | cons n rest => simp [planGo] at h
  | succ fuel ih =>
    intro visited todo out h
    cases todo with
    | nil =>
      simp only [planGo, Option.some.injEq] at h
      subst h
      exact ⟨fun n hn => hn, by simp, fun n hn => Or.inl hn⟩
    | cons n rest =>
      simp only [planGo] at h
      by_cases hv : n ∈ visited
      · rw [if_pos hv] at h
        obtain ⟨h1, h2, h3⟩ := ih visited rest out h
        refine ⟨h1, ?_, h3⟩
        intro m hm
        rcases List.mem_cons.mp hm with rfl | hm
        · exact h1 m hv
        · exact h2 m hm
      · rw [if_neg hv] at h
        by_cases herr :
            (outEdges ds st n).any (fun e => e.2 == DeletionBehaviour.Error) = true
        · rw [if_pos herr] at h
          simp at h
        · rw [if_neg herr] at h
          obtain ⟨h1, h2, h3⟩ := ih _ _ _ h
          have hnout : n ∈ out := h1 n (List.mem_cons_self _ _)
          have hnoerr : ∀ e ∈ outEdges ds st n, e.2 ≠ DeletionBehaviour.Error := by
            intro e he
            simp only [List.any_eq_true, Bool.not_eq_true, beq_iff_eq,
              not_exists, not_and] at herr
            push_neg at herr
            exact herr e he
          have hcasc : ∀ c, (c, DeletionBehaviour.Cascade) ∈ outEdges ds st n →
              c ∈ out := by
            intro c hc
            refine h2 c (List.mem_append_left _ ?_)
            exact List.mem_filterMap.mpr ⟨(c, DeletionBehaviour.Cascade), hc, by simp⟩
          refine ⟨fun m hm => h1 m (List.mem_cons_of_mem _ hm), ?_, ?_⟩
          · intro m hm
            rcases List.mem_cons.mp hm with rfl | hm
            · exact hnout
            · exact h2 m (List.mem_append_right _ hm)
          · intro m hmout
            rcases h3 m hmout with hmv | hP
            · rcases List.mem_cons.mp hmv with rfl | hmv
              · exact Or.inr ⟨hnoerr, hcasc⟩
              · exact Or.inl hmv
            · exact Or.inr hP

/-- Completeness of the planning walk over the Cascade closure: every node
Cascade-reachable from the root belongs to a successful plan. -/
theorem reach_in_plan (ds : Descs) (st : DbState) (fuel : Nat) (root : Node)
    (out : List Node) (h : planGo ds st fuel [] [root] = some out) :
    ∀ m, CascadeReach ds st root m → m ∈ out := by
  obtain ⟨h1, h2, h3⟩ := planGo_invariant ds st fuel [] [root] out h
  intro m hm
  clear h h1
  induction hm with
  | refl => exact h2 root (List.mem_cons_self _ _)
  | step hab hbc ihab =>
    rcases h3 _ ihab with hv | hP
    · simp at hv
    · exact hP.2 _ hbc

theorem mem_treeRemove {α : Type} {t : Tree α} {k : Bytes} {kv : Bytes × α}
    (h : kv ∈ treeRemove t k) : kv ∈ t ∧ kv.1 ≠ k := by
  have hf := List.mem_filter.mp h
  refine ⟨hf.1, ?_⟩
  simpa using hf.2

theorem mem_of_treeGet_some {α : Type} {t : Tree α} {k : Bytes} {v : α}
    (h : treeGet t k = some v) : (k, v) ∈ t := by
  induction t with
  | nil => simp [treeGet] at h
  | cons kv rest ih =>
    obtain ⟨ka, va⟩ := kv
    by_cases hk : ka = k
    · subst hk
      have hv : va = v := by simpa [treeGet, List.find?] using h
      rw [← hv]
      exact List.mem_cons_self _ _
    · have hne : (ka == k) = false := beq_eq_false_iff_ne.mpr hk
      have hrest : treeGet rest k = some v := by
        simpa [treeGet, List.find?, hne] using h
      exact List.mem_cons_of_mem _ (ih hrest)

/-- Surviving entries of the plan application were already present and their
node was not planned for deletion. -/
theorem mem_getTree_foldl_dbRemove {α : Type} (plan : List Node) :
    ∀ (db : Db α) (s : String) (kv : Bytes × α),
      kv ∈ getTree (plan.foldl (fun d n => dbRemove d n.1 n.2) db) s →
      kv ∈ getTree db s ∧ (s, kv.1) ∉ plan := by
  induction plan with
  | nil =>
    intro db s kv h
    exact ⟨by simpa using h, by simp⟩
  | cons n rest ih =>
    intro db s kv h
    rw [List.foldl_cons] at h
    obtain ⟨h1, h2⟩ := ih _ s kv h
    by_cases hs : n.1 = s
    · rw [hs, getTree_dbRemove_same] at h1
      obtain ⟨hmem, hne⟩ := mem_treeRemove h1
      refine ⟨hmem, ?_⟩
      intro hcontra
      rcases List.mem_cons.mp hcontra with heq | hmem2
      · exact hne (congrArg Prod.snd heq.symm).symm
      · exact h2 hmem2
    · rw [getTree_dbRemove_other _ _ _ _ (fun hc => hs hc.symm)] at h1
      refine ⟨h1, ?_⟩
      intro hcontra
      rcases List.mem_cons.mp hcontra with heq | hmem2
      · exact hs (congrArg Prod.fst heq.symm)
      · exact h2 hmem2

/-- C2 (spec-modelled): whenever the Cascade closure of the record to delete
reaches a node with an outgoing Error edge, the policy-aware removal fails
with PolicyViolation and the returned database is bit-identical to the
pre-call state. -/
theorem error_edge_aborts_without_writes (ds : Descs) (fuel : Nat) (st : DbState)
    (root m : Node) (hreach : CascadeReach ds st root m)
    (herr : ∃ e ∈ outEdges ds st m, e.2 = DeletionBehaviour.Error) :
    facadeRemove ds fuel st root = (st, some RemoveErr.PolicyViolation) := by
  cases hplan : planGo ds st fuel [] [root] with
  | none => simp [facadeRemove, hplan]
  | some out =>
    exfalso
    have hm := reach_in_plan ds st fuel root out hplan m hreach
    obtain ⟨h1, h2, h3⟩ := planGo_invariant ds st fuel [] [root] out hplan
    rcases h3 m hm with hv | hP
    · simp at hv
    · obtain ⟨e, he, heq⟩ := herr
      exact hP.1 e he heq

/-- C3 (spec-modelled): removing a parent whose descriptor declares a Cascade
child relation removes the parent record and every child reached by the
prefix scan on the parent key: afterwards the scan returns nothing. -/
theorem cascade_removal_clears_children (ds : Descs) (fuel : Nat)
    (st st' : DbState) (pstore cstore : String) (pkb : Bytes)
    (hchild : (cstore, DeletionBehaviour.Cascade) ∈ (getDesc ds pstore).child_trees)
    (hsucc : facadeRemove ds fuel st (pstore, pkb) = (st', none)) :
    treeGet (getTree st'.trees pstore) pkb = none ∧
    treeScan (getTree st'.trees cstore) pkb = [] ∧
    Entity.getWithPfx (getTree st'.trees cstore) pkb = [] := by
  cases hplan : planGo ds st fuel [] [(pstore, pkb)] with
  | none => simp [facadeRemove, hplan] at hsucc
  | some plan =>
    have hst' : st' = applyPlan st plan := by
      simp only [facadeRemove, hplan] at hsucc
      exact (Prod.mk.injEq _ _ _ _ ▸ hsucc).1.symm
    obtain ⟨h1, h2, h3⟩ := planGo_invariant ds st fuel [] [(pstore, pkb)] plan hplan
    have hroot : (pstore, pkb) ∈ plan := h2 _ (List.mem_cons_self _ _)
    have hP : (∀ e ∈ outEdges ds st (pstore, pkb), e.2 ≠ DeletionBehaviour.Error) ∧
        (∀ c, (c, DeletionBehaviour.Cascade) ∈ outEdges ds st (pstore, pkb) →
          c ∈ plan) := by
      rcases h3 _ hroot with hv | hP
      · simp at hv
      · exact hP
    subst hst'
    have hparent : treeGet (getTree (applyPlan st plan).trees pstore) pkb = none := by
      cases hg : treeGet (getTree (applyPlan st plan).trees pstore) pkb with
      | none => rfl
      | some v =>
        exfalso
        have hmem := mem_of_treeGet_some hg
        have hm := mem_getTree_foldl_dbRemove plan st.trees pstore (pkb, v)
          (by simpa [applyPlan] using hmem)
        exact hm.2 hroot
    have hscan : treeScan (getTree (applyPlan st plan).trees cstore) pkb = [] := by
      rw [List.eq_nil_iff_forall_not_mem]
      intro kv hkv
      obtain ⟨hmem', hpfx⟩ := List.mem_filter.mp hkv
      have hms := mem_getTree_foldl_dbRemove plan st.trees cstore kv
        (by simpa [applyPlan] using hmem')
      have hedge : ((cstore, kv.1), DeletionBehaviour.Cascade) ∈
          outEdges ds st (pstore, pkb) := by
        unfold outEdges
        refine List.mem_append.mpr (Or.inl (List.mem_append.mpr (Or.inr ?_)))
        refine List.mem_flatMap.mpr ⟨(cstore, DeletionBehaviour.Cascade), hchild, ?_⟩
        exact List.mem_map.mpr ⟨kv, List.mem_filter.mpr ⟨hms.1, hpfx⟩, rfl⟩
      exact hms.2 (hP.2 (cstore, kv.1) hedge)
    exact ⟨hparent, hscan, by rw [Entity.getWithPfx, hscan]; rfl⟩

/-! ### Concrete relation graphs for the C2 and C3 witnesses -/

/-- Descriptors for the C2 witness: a parent store with an Error child edge. -/
def ds2w : Descs :=
  [("entity_3", ⟨[], [("child_entity_2", DeletionBehaviour.Error)]⟩)]

/-- State for the C2 witness: parent key 2 with two children under it. -/
def st2w : DbState :=
  ⟨[("entity_3", [(u32AsBytes 2, [])]),
    ("child_entity_2", [(u32AsBytes 2 ++ [0], []), (u32AsBytes 2 ++ [1], [])])], []⟩

/-- Descriptors for the C3 witness: a parent store with a Cascade child edge. -/
def ds3w : Descs :=
  [("entity_2", ⟨[], [("child_entity_1", DeletionBehaviour.Cascade)]⟩)]

/-- State for the C3 witness: parent key `[1]` with three children. -/
def st3w : DbState :=
  ⟨[("entity_2", [([1], [])]),
    ("child_entity_1", [([1, 0], []), ([1, 1], []), ([1, 2], [])])], []⟩

/-- Post-state of the C3 witness: both trees emptied. -/
def st3w' : DbState := ⟨[("entity_2", []), ("child_entity_1", [])], []⟩

/-- C2 witness: deleting the parent of an Error child aborts with the
database untouched. -/
theorem error_edge_aborts_without_writes_witness :
    (∃ e ∈ outEdges ds2w st2w ("entity_3", u32AsBytes 2),
      e.2 = DeletionBehaviour.Error) ∧
    facadeRemove ds2w 5 st2w ("entity_3", u32AsBytes 2) =
      (st2w, some RemoveErr.PolicyViolation) :=
  ⟨by decide, error_edge_aborts_without_writes ds2w 5 st2w _ _
    (CascadeReach.refl _) (by decide)⟩

/-- C3 witness: deleting the parent removes it and empties the child scan. -/
theorem cascade_removal_clears_children_witness :
    ("child_entity_1", DeletionBehaviour.Cascade) ∈
      (getDesc ds3w "entity_2").child_trees ∧
    facadeRemove ds3w 8 st3w ("entity_2", [1]) = (st3w', none) ∧
    (treeGet (getTree st3w'.trees "entity_2") [1] = none ∧
     treeScan (getTree st3w'.trees "child_entity_1") [1] = [] ∧
     Entity.getWithPfx (getTree st3w'.trees "child_entity_1") [1] = []) :=
  ⟨by decide, by decide,
   cascade_removal_clears_children ds3w 8 st3w st3w' "entity_2" "child_entity_1" [1]
     (by decide) (by decide)⟩

end Reindeer
